import Mathlib

/-!
Verification of the bee swarm-node repository against its natural-language
specification, by a shallow embedding of the relevant Go functions in Lean.

Conventions used throughout:
- Swarm addresses (32-byte identifiers) are modelled as natural numbers;
  byte strings as `List Nat`.
- External collaborators (the wrapped local store, the retrieval client,
  the topology driver, the accounting layer, streams) are modelled by
  environment records holding the outcome of each external call; the
  control flow acting on those outcomes is translated from the source.
- Fallible operations return `Except`/`Option`; a Go `nil` dereference is
  modelled as an undefined (`none`) result.
- Goroutine spawns (`go f(...)`) are recorded as flags/event lists; real
  concurrency and context cancellation are not modelled.
-/

namespace Bee

/-- Swarm addresses: 32-byte identifiers, modelled as natural numbers.
The all-zero address is `0`. -/
abbrev Addr := Nat

/-- A swarm chunk: a pair of an address and its data bytes
(pkg/swarm: `swarm.NewChunk(addr, data)`). -/
structure Chunk where
  addr : Addr
  data : List Nat
deriving DecidableEq, Repr

/-! ## Netstore (src/pkg/netstore/netstore.go) -/

/-- Error classes of the wrapped local store's `Get`; the netstore only
distinguishes `storage.ErrNotFound` from any other error. -/
inductive LocalGetErr
  | notFound
  | other
deriving DecidableEq, Repr

/-- Errors netstore `Get` can surface (wrapping by `fmt.Errorf` preserved
only as the error class). -/
inductive NetGetErr
  | recoveryAttempt
  | retrieveFailed
  | invalidChunk
  | putFailed
  | getOther
deriving DecidableEq, Repr

/-- Storage put modes used by the embedded code. -/
inductive PutMode
  | request
  | sync
  | upload
deriving DecidableEq, Repr

/-- Environment of one netstore `Get(mode, addr)` call: the outcome of each
external call the function makes. -/
structure NetEnv where
  /-- outcome of `s.Storer.Get(ctx, mode, addr)`: the stored data, or an error -/
  localGet : Except LocalGetErr (List Nat)
  /-- outcome of `s.retrieval.RetrieveChunk(ctx, addr)`: `none` means it errored -/
  retrieve : Option (List Nat)
  /-- whether `ctx.Value(targetsContextKey)` is non-nil -/
  targetsPresent : Bool
  /-- whether `s.recoveryCallback` is non-nil -/
  recoveryConfigured : Bool
  /-- the registered chunk validators (`s.validators`) -/
  validators : List (Chunk → Bool)
  /-- whether `s.Storer.Put(ctx, ModePutRequest, ch)` succeeds -/
  localPutOk : Bool

/-- store.valid: a chunk is valid iff at least one registered validator
accepts it (netstore.go lines 84-91). -/
def validChunk (validators : List (Chunk → Bool)) (ch : Chunk) : Bool :=
  validators.any (fun v => v ch)

/-- Observable outcome of one netstore `Get` call. -/
structure NetGetResult where
  result : Except NetGetErr Chunk
  /-- whether `s.retrieval.RetrieveChunk` was invoked -/
  retrieveCalled : Bool
  /-- whether `go s.recoveryCallback(ctx, addr)` was spawned -/
  callbackFired : Bool
  /-- chunks handed to the wrapped store's `Put`, with their mode -/
  puts : List (PutMode × Chunk)

/-- Shallow embedding of netstore `store.Get` (netstore.go lines 39-69).
On a local miss the code always calls `RetrieveChunk` first; the recovery
callback fires only when retrieval itself fails and both the context
targets and the callback are present. -/
def netstoreGet (env : NetEnv) (addr : Addr) : NetGetResult :=
  match env.localGet with
  | .ok d => ⟨.ok ⟨addr, d⟩, false, false, []⟩
  | .error .other => ⟨.error .getOther, false, false, []⟩
  | .error .notFound =>
    match env.retrieve with
    | none =>
      if env.recoveryConfigured && env.targetsPresent then
        ⟨.error .recoveryAttempt, true, true, []⟩
      else
        ⟨.error .retrieveFailed, true, false, []⟩
    | some d =>
      let ch : Chunk := ⟨addr, d⟩
      if validChunk env.validators ch then
        if env.localPutOk then
          ⟨.ok ch, true, false, [(PutMode.request, ch)]⟩
        else
          ⟨.error .putFailed, true, false, [(PutMode.request, ch)]⟩
      else
        ⟨.error .invalidChunk, true, false, []⟩

/-- Error classes of netstore `Put`. -/
inductive NetPutErr
  | invalidChunk
  | storeErr
deriving DecidableEq, Repr

/-- Observable outcome of one netstore `Put` call: the returned value and
the chunk list handed to the wrapped store (`none` when the wrapped store's
`Put` was never invoked). -/
structure NetPutResult where
  result : Except NetPutErr (List Bool)
  delegated : Option (List Chunk)

/-- Shallow embedding of netstore `store.Put` (netstore.go lines 74-81):
every chunk is validated first and the first invalid chunk short-circuits
the call with `ErrInvalidChunk` before anything reaches the wrapped store;
`sPut` is the outcome of the wrapped store's `Put` on `chs`. -/
def netstorePut (validators : List (Chunk → Bool))
    (sPut : Except NetPutErr (List Bool)) (chs : List Chunk) : NetPutResult :=
  if chs.all (fun ch => validChunk validators ch) then
    ⟨sPut, some chs⟩
  else
    ⟨.error .invalidChunk, none⟩

/-! ### Netstore theorems (claims C1, C5, C6) -/

/-- C1 (amended): on every netstore `Get` in which the wrapped local store
returns `ErrNotFound`, the retrieval client is always invoked; only when
retrieval itself fails does the recovery logic run, and then the recovery
callback fires and `ErrRecoveryAttempt` is returned exactly when the
context carries recovery targets and a recovery callback is configured. -/
theorem netstoreGet_recovery_after_retrieval_failure (env : NetEnv) (addr : Addr)
    (h : env.localGet = .error .notFound) :
    (netstoreGet env addr).retrieveCalled = true ∧
    (env.retrieve = none →
      ((netstoreGet env addr).result = .error .recoveryAttempt ↔
        env.recoveryConfigured = true ∧ env.targetsPresent = true) ∧
      ((netstoreGet env addr).callbackFired = true ↔
        env.recoveryConfigured = true ∧ env.targetsPresent = true)) := by
  unfold netstoreGet
  rw [h]
  refine ⟨?_, ?_⟩
  · cases hr : env.retrieve with
    | none =>
      by_cases hc : env.recoveryConfigured && env.targetsPresent <;>
        simp [hc]
    | some d =>
      by_cases hv : validChunk env.validators ⟨addr, d⟩ <;>
        by_cases hp : env.localPutOk <;> simp [hv, hp]
  · intro hr
    rw [hr]
    by_cases hc : env.recoveryConfigured <;> by_cases ht : env.targetsPresent <;>
      simp [hc, ht]

/-- Witness for C1's theorem at a concrete environment. -/
theorem netstoreGet_recovery_after_retrieval_failure_witness :
    (netstoreGet ⟨.error .notFound, none, true, true, [], true⟩ 5).retrieveCalled = true ∧
    ((none : Option (List Nat)) = none →
      ((netstoreGet ⟨.error .notFound, none, true, true, [], true⟩ 5).result =
          .error .recoveryAttempt ↔ true = true ∧ true = true) ∧
      ((netstoreGet ⟨.error .notFound, none, true, true, [], true⟩ 5).callbackFired = true ↔
        true = true ∧ true = true)) :=
  netstoreGet_recovery_after_retrieval_failure ⟨.error .notFound, none, true, true, [], true⟩ 5 rfl

/-- Counterexample to C1 as stated: a `Get` with a local-store miss where the
context carries targets and a recovery callback is configured, yet the
retrieval client succeeds. The claim asserts the callback fires and
`ErrRecoveryAttempt` is returned without calling the retrieval client; the
code calls the retrieval client, never fires the callback, and returns the
retrieved chunk. -/
theorem netstoreGet_recovery_order_counterexample :
    (netstoreGet ⟨.error .notFound, some [7], true, true, [fun _ => true], true⟩ 5).retrieveCalled
        = true ∧
    (netstoreGet ⟨.error .notFound, some [7], true, true, [fun _ => true], true⟩ 5).callbackFired
        = false ∧
    (netstoreGet ⟨.error .notFound, some [7], true, true, [fun _ => true], true⟩ 5).result
        ≠ .error .recoveryAttempt := by
  refine ⟨rfl, rfl, ?_⟩
  simp [netstoreGet, validChunk]

/-- C5 (amended): on every netstore `Get` where the local store misses, the
retrieval client returns data, the constructed chunk is accepted by some
registered validator, and the wrapped store's `Put` succeeds, `Get` returns
the chunk `(addr, data)` and has put exactly that chunk into the wrapped
store under `ModePutRequest`. -/
theorem netstoreGet_retrieval_success (env : NetEnv) (addr : Addr) (d : List Nat)
    (h1 : env.localGet = .error .notFound) (h2 : env.retrieve = some d)
    (h3 : validChunk env.validators ⟨addr, d⟩ = true) (h4 : env.localPutOk = true) :
    (netstoreGet env addr).result = .ok ⟨addr, d⟩ ∧
    (netstoreGet env addr).puts = [(PutMode.request, Chunk.mk addr d)] := by
  unfold netstoreGet
  rw [h1, h2]
  simp [h3, h4]

/-- Witness for C5's theorem at a concrete environment. -/
theorem netstoreGet_retrieval_success_witness :
    (netstoreGet ⟨.error .notFound, some [7], false, false, [fun _ => true], true⟩ 5).result
        = .ok ⟨5, [7]⟩ ∧
    (netstoreGet ⟨.error .notFound, some [7], false, false, [fun _ => true], true⟩ 5).puts
        = [(PutMode.request, Chunk.mk 5 [7])] :=
  netstoreGet_retrieval_success ⟨.error .notFound, some [7], false, false, [fun _ => true], true⟩
    5 [7] rfl rfl rfl rfl

/-- Counterexample to C5 as stated: a netstore with no registered validators
(as `netstore.New` permits) misses locally and retrieves data successfully,
yet `Get` returns `ErrInvalidChunk` and puts nothing, contradicting the
unconditional claim that the retrieved chunk is returned and stored. -/
theorem netstoreGet_retrieval_no_validator_counterexample :
    (netstoreGet ⟨.error .notFound, some [7], false, false, [], true⟩ 5).result
        = .error .invalidChunk ∧
    (netstoreGet ⟨.error .notFound, some [7], false, false, [], true⟩ 5).result
        ≠ .ok ⟨5, [7]⟩ ∧
    (netstoreGet ⟨.error .notFound, some [7], false, false, [], true⟩ 5).puts = [] := by
  refine ⟨rfl, ?_, rfl⟩
  simp [netstoreGet, validChunk]

/-- C6 (confirmed): netstore `Put` returns `ErrInvalidChunk` without invoking
the wrapped store's `Put` if and only if some chunk is accepted by no
registered validator; when every chunk is valid, the whole chunk list is
delegated to the wrapped store. -/
theorem netstorePut_validation (validators : List (Chunk → Bool))
    (sPut : Except NetPutErr (List Bool)) (chs : List Chunk) :
    (((netstorePut validators sPut chs).result = .error .invalidChunk ∧
        (netstorePut validators sPut chs).delegated = none) ↔
      ∃ ch ∈ chs, validChunk validators ch = false) ∧
    ((∀ ch ∈ chs, validChunk validators ch = true) →
      (netstorePut validators sPut chs).delegated = some chs) := by
  by_cases h : chs.all (fun ch => validChunk validators ch) = true
  · have hres : netstorePut validators sPut chs = ⟨sPut, some chs⟩ := by
      unfold netstorePut
      rw [if_pos h]
    rw [List.all_eq_true] at h
    rw [hres]
    refine ⟨⟨?_, ?_⟩, fun _ => rfl⟩
    · rintro ⟨-, hnone⟩
      exact Option.noConfusion hnone
    · rintro ⟨ch, hch, hval⟩
      have hv := h ch hch
      rw [hv] at hval
      exact Bool.noConfusion hval
  · have hres : netstorePut validators sPut chs = ⟨.error .invalidChunk, none⟩ := by
      unfold netstorePut
      rw [if_neg h]
    have hex : ∃ ch ∈ chs, validChunk validators ch = false := by
      rw [List.all_eq_true] at h
      push_neg at h
      obtain ⟨ch, hch, hval⟩ := h
      exact ⟨ch, hch, by simpa using hval⟩
    rw [hres]
    refine ⟨⟨fun _ => hex, fun _ => ⟨rfl, rfl⟩⟩, ?_⟩
    intro hv
    obtain ⟨ch, hch, hval⟩ := hex
    rw [hv ch hch] at hval
    exact Bool.noConfusion hval

/-- Witness for C6's theorem: the all-valid branch at a concrete input. -/
theorem netstorePut_validation_witness :
    (netstorePut [fun _ => true] (.ok [false]) [⟨5, [7]⟩]).delegated = some [⟨5, [7]⟩] :=
  (netstorePut_validation [fun _ => true] (.ok [false]) [⟨5, [7]⟩]).2
    (by intro ch _; rfl)

/-! ## Joiner level computation (src/pkg/file/joiner/internal/job.go) -/

/-- Shallow embedding of `getLevelsFromLength` (job.go lines 110-121). The Go
code computes `int(math.Log(float64 c)/math.Log(float64 b) + 1)` over float64;
here the logarithm is modelled as exact, so the truncation of
`log_b c + 1` is the integer floor logarithm `Nat.log b c` plus one (for an
exact power `b^m` both readings give `m + 1`). Theorems assume `2 ≤ b`, as the
Go expression divides by `log b`. -/
def getLevelsFromLength (l : Int) (sectionSize branches : Nat) : Nat :=
  if l = 0 then 0
  else if l ≤ (sectionSize * branches : Nat) then 1
  else Nat.log branches ((l - 1).toNat / sectionSize) + 1

/-- C4 (amended): `getLevelsFromLength(l, 32, k)` returns `0` when `l = 0`,
`1` when `l ≤ 32·k`, and otherwise `floor(log_k((l-1)/32)) + 1` — the floor,
not the ceiling, of the logarithm: the returned `L` brackets the section
count `c = (l-1)/32` as `k^(L-1) ≤ c < k^L`. -/
theorem getLevelsFromLength_floor_log (l : Int) (k : Nat) (hk : 2 ≤ k) :
    (l = 0 → getLevelsFromLength l 32 k = 0) ∧
    (l ≠ 0 → l ≤ (32 * k : Nat) → getLevelsFromLength l 32 k = 1) ∧
    ((32 * k : Nat) < l →
      getLevelsFromLength l 32 k = Nat.log k ((l - 1).toNat / 32) + 1 ∧
      k ^ (getLevelsFromLength l 32 k - 1) ≤ (l - 1).toNat / 32 ∧
      (l - 1).toNat / 32 < k ^ getLevelsFromLength l 32 k) := by
  refine ⟨fun h0 => by simp [getLevelsFromLength, h0], ?_, ?_⟩
  · intro h0 hle
    unfold getLevelsFromLength
    rw [if_neg h0, if_pos hle]
  · intro hlt
    have hnn : (0 : Int) ≤ ((32 * k : Nat) : Int) := Int.natCast_nonneg _
    have h0 : l ≠ 0 := by omega
    have hnle : ¬ l ≤ (32 * k : Nat) := not_le.mpr hlt
    have hval : getLevelsFromLength l 32 k = Nat.log k ((l - 1).toNat / 32) + 1 := by
      unfold getLevelsFromLength
      rw [if_neg h0, if_neg hnle]
    have hc : k ≤ (l - 1).toNat / 32 := by
      have h1 : (32 * k : Int) ≤ l - 1 := by
        have := hlt
        push_cast at this ⊢
        omega
      have h2 : 32 * k ≤ (l - 1).toNat := by
        omega
      omega
    have hcpos : (l - 1).toNat / 32 ≠ 0 := by
      omega
    refine ⟨hval, ?_, ?_⟩
    · rw [hval]
      simpa using Nat.pow_log_le_self k hcpos
    · rw [hval]
      exact Nat.lt_pow_succ_log_self (by omega) _

/-- Witness for C4's theorem at `l = 4129, k = 128` (section count `129`). -/
theorem getLevelsFromLength_floor_log_witness :
    getLevelsFromLength 4129 32 128 = Nat.log 128 (((4129 : Int) - 1).toNat / 32) + 1 ∧
    128 ^ (getLevelsFromLength 4129 32 128 - 1) ≤ ((4129 : Int) - 1).toNat / 32 ∧
    ((4129 : Int) - 1).toNat / 32 < 128 ^ getLevelsFromLength 4129 32 128 :=
  (getLevelsFromLength_floor_log 4129 128 (by norm_num)).2.2 (by norm_num)

/-- Counterexample to C4 as stated: at `l = 4129`, the section count is
`c = (4129-1)/32 = 129` and `ceil(log_128 129) + 1 = 3`, but the code
returns `floor(log_128 129) + 1 = 2`. -/
theorem getLevelsFromLength_ceil_counterexample :
    getLevelsFromLength 4129 32 128 = 2 ∧
    Nat.clog 128 (((4129 : Int) - 1).toNat / 32) + 1 = 3 ∧
    getLevelsFromLength 4129 32 128 ≠
      Nat.clog 128 (((4129 : Int) - 1).toNat / 32) + 1 := by
  have hc : (((4129 : Int) - 1).toNat / 32) = 129 := by decide
  have hlog : Nat.log 128 129 = 1 :=
    Nat.log_eq_of_pow_le_of_lt_pow (by norm_num) (by norm_num)
  have hclog : Nat.clog 128 129 = 2 := by
    have h1 : Nat.clog 128 129 ≤ 2 :=
      (Nat.le_pow_iff_clog_le (by norm_num)).mp (by norm_num)
    have h2 : ¬ Nat.clog 128 129 ≤ 1 := by
      intro h
      have := (Nat.le_pow_iff_clog_le (b := 128) (by norm_num)).mpr h
      norm_num at this
    omega
  have hcode : getLevelsFromLength 4129 32 128 = 2 := by
    unfold getLevelsFromLength
    rw [if_neg (by norm_num), if_neg (by norm_num), hc, hlog]
  refine ⟨hcode, by rw [hc, hclog], ?_⟩
  rw [hcode, hc, hclog]
  norm_num

/-! ## Chunk feeder (src/pkg/file/pipeline/chunkfeeder_writer.go) -/

/-- The 8-byte little-endian encoding written by
`binary.LittleEndian.PutUint64` (faithful for `n < 2^64`; the encoded
values here are Go slice lengths). -/
def u64LE (n : Nat) : List Nat :=
  [n % 256, n / 256 % 256, n / 256 ^ 2 % 256, n / 256 ^ 3 % 256,
   n / 256 ^ 4 % 256, n / 256 ^ 5 % 256, n / 256 ^ 6 % 256, n / 256 ^ 7 % 256]

/-- Observable outcome of one `chunkFeeder.Write` call: the Go return
value (`.ok w` with the summed `ChainWrite` byte counts, or the first
error, returned with `w = 0`), and the records passed to the next stage's
`ChainWrite`, in order (the record of a failing `ChainWrite` is included:
that call was made). -/
structure FeederResult where
  res : Except Unit Int
  records : List (List Nat)
deriving Repr

/-- Shallow embedding of `chunkFeeder.Write` (chunkfeeder_writer.go lines
20-42): the loop `for i := 0; i < len(b); i += f.size` is modelled by
recursion on the remaining bytes. Each iteration builds the record
`span(8 LE) ‖ piece` for the next at-most-`size` bytes and hands it to
`f.next.ChainWrite`; `next idx record` is that call's outcome (`idx`
counts the calls, so a stateful downstream stage — e.g. one that hits
`ErrTrieFull`, or a failing store put — can fail at any point). Per lines
35-38 an error stops the loop immediately and `Write` returns `(0, err)`;
a successful byte count is added to `w`. For `size = 0` the Go loop never
terminates on nonempty input; the model returns `⟨.ok w, []⟩` there and
every theorem assumes `0 < size`. -/
def chunkFeederWriteGo (next : Nat → List Nat → Except Unit Int) (size : Nat)
    (idx : Nat) (w : Int) (b : List Nat) : FeederResult :=
  if h : size = 0 ∨ b = [] then ⟨.ok w, []⟩
  else
    match next idx (u64LE (b.take size).length ++ b.take size) with
    | .error e => ⟨.error e, [u64LE (b.take size).length ++ b.take size]⟩
    | .ok k =>
      ⟨(chunkFeederWriteGo next size (idx + 1) (w + k) (b.drop size)).res,
        (u64LE (b.take size).length ++ b.take size) ::
          (chunkFeederWriteGo next size (idx + 1) (w + k) (b.drop size)).records⟩
termination_by b.length
decreasing_by
  all_goals
    push_neg at h
    simpa [List.length_drop] using
      Nat.sub_lt (List.length_pos.mpr h.2) (Nat.pos_of_ne_zero h.1)

/-- `chunkFeeder.Write` entry point: the call index and the returned byte
count `w` start at 0. -/
def chunkFeederWrite (next : Nat → List Nat → Except Unit Int) (size : Nat)
    (b : List Nat) : FeederResult :=
  chunkFeederWriteGo next size 0 0 b

/-- Helper: the ceiling division `ceil(m / s)` satisfies the recurrence of
one feeder iteration (consume `s` bytes, emit one record). -/
theorem ceil_div_shift (s m : Nat) (hs : 0 < s) (hm : 0 < m) :
    (m + s - 1) / s = (m - s + s - 1) / s + 1 := by
  rcases le_or_lt m s with h | h
  · have h1 : m - s = 0 := Nat.sub_eq_zero_of_le h
    rw [h1]
    have h2 : (m + s - 1) / s = 1 := by
      have e : m + s - 1 = (m - 1) + s := by omega
      rw [e, Nat.add_div_right _ hs, Nat.div_eq_of_lt (by omega)]
    rw [h2, Nat.div_eq_of_lt (by omega)]
  · have e1 : m + s - 1 = (m - 1 - s) + s + s := by omega
    have e2 : m - s + s - 1 = (m - 1 - s) + s := by omega
    rw [e1, e2, Nat.add_div_right _ hs, Nat.add_div_right _ hs]

/-- C7 (amended): for every byte list `b` and feeder size `s > 0`, provided
every `ChainWrite` of the next stage succeeds, `chunkFeeder.Write` performs
`ceil(|b| / s)` chain writes, the `i`-th record being the 8-byte
little-endian encoding of the length of the `i`-th consecutive `s`-sized
piece of `b` (the last piece possibly shorter) followed by that piece. -/
theorem chunkFeederWrite_records (next : Nat → List Nat → Except Unit Int)
    (s : Nat) (b : List Nat) (hs : 0 < s)
    (hnext : ∀ (i : Nat) (r : List Nat), ∃ k, next i r = .ok k) :
    (chunkFeederWrite next s b).records.length = (b.length + s - 1) / s ∧
    ∀ i, i < (b.length + s - 1) / s →
      (chunkFeederWrite next s b).records[i]? =
        some (u64LE ((b.drop (i * s)).take s).length ++ (b.drop (i * s)).take s) := by
  suffices h : ∀ (n idx : Nat) (w : Int) (b : List Nat), b.length ≤ n →
      (chunkFeederWriteGo next s idx w b).records.length = (b.length + s - 1) / s ∧
      ∀ i, i < (b.length + s - 1) / s →
        (chunkFeederWriteGo next s idx w b).records[i]? =
          some (u64LE ((b.drop (i * s)).take s).length ++ (b.drop (i * s)).take s) by
    exact h b.length 0 0 b le_rfl
  have hnil : ∀ (idx : Nat) (w : Int),
      chunkFeederWriteGo next s idx w [] = ⟨.ok w, []⟩ := by
    intro idx w
    rw [chunkFeederWriteGo]
    simp
  have hznil : (List.length ([] : List Nat) + s - 1) / s = 0 := by
    simp only [List.length_nil, Nat.zero_add]
    exact Nat.div_eq_of_lt (by omega)
  intro n
  induction n with
  | zero =>
    intro idx w b hb
    have hb0 : b = [] := List.eq_nil_of_length_eq_zero (Nat.le_zero.mp hb)
    subst hb0
    rw [hnil, hznil]
    exact ⟨rfl, fun i hi => absurd hi (Nat.not_lt_zero i)⟩
  | succ n ih =>
    intro idx w b hb
    by_cases hbe : b = []
    · subst hbe
      rw [hnil, hznil]
      exact ⟨rfl, fun i hi => absurd hi (Nat.not_lt_zero i)⟩
    · have hcond : ¬ (s = 0 ∨ b = []) := by
        push_neg
        exact ⟨by omega, hbe⟩
      have hlen : 0 < b.length := List.length_pos.mpr hbe
      have hdrop : (b.drop s).length ≤ n := by
        rw [List.length_drop]
        omega
      obtain ⟨k, hk⟩ := hnext idx (u64LE (b.take s).length ++ b.take s)
      obtain ⟨ihlen, ihget⟩ := ih (idx + 1) (w + k) (b.drop s) hdrop
      have hceil : (b.length + s - 1) / s = ((b.drop s).length + s - 1) / s + 1 := by
        rw [List.length_drop]
        exact ceil_div_shift s b.length hs hlen
      rw [chunkFeederWriteGo]
      simp only [dif_neg hcond]
      rw [hk]
      refine ⟨?_, ?_⟩
      · simp only [List.length_cons, ihlen, hceil]
      · intro i hi
        cases i with
        | zero =>
          simp only [List.getElem?_cons_zero, Nat.zero_mul, List.drop_zero]
        | succ i =>
          rw [hceil] at hi
          have hi2 : i < ((b.drop s).length + s - 1) / s := Nat.lt_of_succ_lt_succ hi
          have := ihget i hi2
          rw [List.getElem?_cons_succ, this, List.drop_drop]
          have harith : s + i * s = (i + 1) * s := by ring
          rw [harith]

/-- Witness for C7's theorem at `s = 2`, `b = [1,2,3]` with an
always-succeeding next stage: two records, the second covering the short
tail piece `[3]`. -/
theorem chunkFeederWrite_records_witness :
    (chunkFeederWrite (fun _ _ => .ok 1) 2 [1, 2, 3]).records.length = (3 + 2 - 1) / 2 ∧
    (chunkFeederWrite (fun _ _ => .ok 1) 2 [1, 2, 3]).records[1]? =
      some (u64LE ((([1, 2, 3] : List Nat).drop (1 * 2)).take 2).length ++
        (([1, 2, 3] : List Nat).drop (1 * 2)).take 2) :=
  ⟨(chunkFeederWrite_records (fun _ _ => .ok 1) 2 [1, 2, 3] (by norm_num)
      (fun _ _ => ⟨1, rfl⟩)).1,
   (chunkFeederWrite_records (fun _ _ => .ok 1) 2 [1, 2, 3] (by norm_num)
      (fun _ _ => ⟨1, rfl⟩)).2 1 (by norm_num)⟩

/-- Counterexample to C7 as stated: when the next stage's first
`ChainWrite` fails (as a store put error or `ErrTrieFull` does), `Write`
stops after that single chain write and returns the error (lines 35-38),
so for `b = [1,2,3]` and `s = 2` only one chain write is performed,
although `ceil(3/2) = 2`. -/
theorem chunkFeederWrite_chain_error_counterexample :
    (chunkFeederWrite (fun _ _ => .error ()) 2 [1, 2, 3]).records.length = 1 ∧
    (3 + 2 - 1) / 2 = 2 ∧
    (chunkFeederWrite (fun _ _ => .error ()) 2 [1, 2, 3]).records.length ≠
      (3 + 2 - 1) / 2 ∧
    (chunkFeederWrite (fun _ _ => .error ()) 2 [1, 2, 3]).res = .error () := by
  have hrun : chunkFeederWrite (fun _ _ => .error ()) 2 [1, 2, 3] =
      ⟨.error (), [u64LE 2 ++ [1, 2]]⟩ := by
    unfold chunkFeederWrite
    rw [chunkFeederWriteGo]
    simp
  rw [hrun]
  exact ⟨rfl, rfl, by norm_num, rfl⟩

/-! ## Single-owner chunks (src/pkg/soc/soc.go) -/

/-- crypto.AddressSize: length of an Ethereum owner address. -/
def addressSize : Nat := 20

/-- `Owner` wraps a validated-length owner address (soc.go lines 30-32). -/
structure Owner where
  address : List Nat
deriving DecidableEq, Repr

/-- `NewOwner` (soc.go lines 35-42): admits only addresses of exactly
`AddressSize` bytes. -/
def NewOwner (address : List Nat) : Option Owner :=
  if address.length = addressSize then some ⟨address⟩ else none

/-- The `Soc` struct (soc.go lines 45-51). The Go pointer fields
`signature`, `signer`, `owner` are `nil` until set; `nil` is `none` here,
with the signer abstracted to a unit handle. -/
structure Soc where
  id : List Nat
  signature : Option (List Nat)
  signer : Option Unit
  owner : Option Owner
  chunk : Chunk

/-- `NewSoc` (soc.go lines 59-66): only `id` and `chunk` are populated;
`owner` (and `signature`, `signer`) stay nil. -/
def NewSoc (id : List Nat) (ch : Chunk) : Soc :=
  ⟨id, none, none, none, ch⟩

/-- `WithOwnerAddress` (soc.go lines 70-73). -/
def withOwnerAddress (s : Soc) (o : Owner) : Soc :=
  { s with owner := some o }

/-- `AddSigner` (soc.go lines 79-96): the owner bytes derived from the
signer's public key are an input here (the key derivation is external
crypto); on any failure the receiver is left unchanged, otherwise both
`signer` and `owner` are set. -/
def addSigner (s : Soc) (derivedOwnerBytes : Option (List Nat)) : Soc :=
  match derivedOwnerBytes with
  | none => s
  | some bytes =>
    match NewOwner bytes with
    | none => s
    | some o => { s with signer := some (), owner := some o }

/-- `Soc.OwnerAddress` (soc.go lines 99-101) dereferences `s.owner`; the
nil dereference is modelled by `none`: the operation has a value exactly
when an owner has been set. -/
def ownerAddress (s : Soc) : Option (List Nat) :=
  s.owner.map Owner.address

/-- `CreateAddress` (soc.go lines 201-213): keccak of `id ‖ owner.address`;
the hash is abstracted as `H`. -/
def createAddress (H : List Nat → List Nat) (id : List Nat) (o : Owner) : List Nat :=
  H (id ++ o.address)

/-- `Soc.Address` (soc.go lines 104-106) calls `CreateAddress(s.id, s.owner)`,
which dereferences the owner pointer; modelled by `none` when unset. -/
def socAddress (H : List Nat → List Nat) (s : Soc) : Option (List Nat) :=
  s.owner.map (fun o => createAddress H s.id o)

/-- C10 (confirmed): a `Soc` built by `NewSoc` has no owner, so `Address()`
and `OwnerAddress()` dereference a nil owner (no value, rather than an
error); both operations have a value exactly when an owner has been set,
which `WithOwnerAddress` does and a failed `AddSigner` does not. -/
theorem soc_owner_required (H : List Nat → List Nat) (id : List Nat) (ch : Chunk) :
    (NewSoc id ch).owner = none ∧
    ownerAddress (NewSoc id ch) = none ∧
    socAddress H (NewSoc id ch) = none ∧
    (∀ s : Soc, (ownerAddress s).isSome = s.owner.isSome) ∧
    (∀ s : Soc, (socAddress H s).isSome = s.owner.isSome) ∧
    (∀ (s : Soc) (o : Owner), ownerAddress (withOwnerAddress s o) = some o.address) ∧
    (∀ s : Soc, addSigner s none = s) := by
  refine ⟨rfl, rfl, rfl, ?_, ?_, fun s o => rfl, fun s => rfl⟩
  · intro s
    unfold ownerAddress
    cases h : s.owner <;> simp [h]
  · intro s
    unfold socAddress
    cases h : s.owner <;> simp [h]

/-! ## Mock storer pin bookkeeping (src/pkg/storage/mock/storer.go)

The parallel slices `pinnedAddress`/`pinnedCounter` are modelled as one
ordered association list. Counters are Go `uint64`; they are modelled as
`Nat` (wraparound after `2^64` increments of one address is not modelled,
and the decrement in `setUnpin` is only ever applied to entries whose
counter is at least 1, which the well-formedness invariant guarantees).
The `modeSet` map written at the top of `MockStorer.Set` is never read by
the pin logic and is omitted. The Go removal path writes a one-byte zero
sentinel address into the vacated slot before truncating; the slice
aliasing visible only when unpinning the one-byte zero address itself is
a memory-layout artifact and is not modelled. -/

/-- Pinned set: ordered `(address, counter)` entries. -/
abbrev PinState := List (Addr × Nat)

/-- Modes of `storage.ModeSet` as the mock distinguishes them: pin, unpin,
or anything else (which only touches the `modeSet` map). -/
inductive ModeSet
  | pin
  | unpin
  | access
deriving DecidableEq, Repr

/-- The `ModeSetPin` branch of `MockStorer.Set` (storer.go lines 172-184):
increment every matching entry; append `(addr, 1)` when none matched. -/
def setPin (st : PinState) (addr : Addr) : PinState :=
  if st.any (fun e => e.1 == addr) then
    st.map (fun e => if e.1 == addr then (e.1, e.2 + 1) else e)
  else
    st ++ [(addr, 1)]

/-- The `ModeSetUnpin` branch of `MockStorer.Set` (storer.go lines 188-203):
decrement the matching entry and drop it when the counter reaches zero. -/
def setUnpin (st : PinState) (addr : Addr) : PinState :=
  st.filterMap (fun e =>
    if e.1 == addr then
      if e.2 - 1 = 0 then none else some (e.1, e.2 - 1)
    else some e)

/-- One iteration of the address loop in `MockStorer.Set`. -/
def setOne (st : PinState) (mode : ModeSet) (addr : Addr) : PinState :=
  match mode with
  | .pin => setPin st addr
  | .unpin => setUnpin st addr
  | .access => st

/-- `MockStorer.Set` (storer.go lines 163-206) over its address list. -/
def mockSet (st : PinState) (mode : ModeSet) (addrs : List Addr) : PinState :=
  addrs.foldl (fun s a => setOne s mode a) st

/-- `MockStorer.PinInfo` (storer.go lines 312-321): the counter stored for
`addr`, or `ErrNotFound` (`none`). -/
def pinInfo (st : PinState) (addr : Addr) : Option Nat :=
  (st.find? (fun e => e.1 == addr)).map (fun e => e.2)

/-- Well-formedness of the pinned set: addresses are unique (the mock only
appends an address when it is absent) and every counter is at least 1. -/
def PinWF (st : PinState) : Prop :=
  (st.map Prod.fst).Nodup ∧ ∀ e ∈ st, 1 ≤ e.2

instance : DecidablePred PinWF := fun st =>
  inferInstanceAs (Decidable (_ ∧ _))

theorem pinWF_setPin (st : PinState) (addr : Addr) (h : PinWF st) :
    PinWF (setPin st addr) := by
  obtain ⟨hnd, hge⟩ := h
  unfold setPin
  by_cases hany : st.any (fun e => e.1 == addr) = true
  · rw [if_pos hany]
    constructor
    · have hkeys : (st.map (fun e => if e.1 == addr then (e.1, e.2 + 1) else e)).map Prod.fst
          = st.map Prod.fst := by
        rw [List.map_map]
        apply List.map_congr_left
        intro e _
        by_cases he : e.1 = addr <;> simp [he]
      rw [hkeys]
      exact hnd
    · intro e he
      rw [List.mem_map] at he
      obtain ⟨e0, he0, heq⟩ := he
      by_cases h0 : (e0.1 == addr) = true
      · rw [if_pos h0] at heq
        subst heq
        exact Nat.succ_le_succ (Nat.zero_le _)
      · rw [if_neg h0] at heq
        subst heq
        exact hge e0 he0
  · rw [if_neg hany]
    constructor
    · rw [List.map_append]
      simp only [List.map_cons, List.map_nil]
      rw [List.nodup_append]
      refine ⟨hnd, List.nodup_singleton addr, ?_⟩
      intro a ha hb
      simp only [List.mem_singleton] at hb
      subst hb
      rw [List.mem_map] at ha
      obtain ⟨e0, he0, heq⟩ := ha
      rw [List.any_eq_true] at hany
      exact hany ⟨e0, he0, by simp [heq]⟩
    · intro e he
      rw [List.mem_append] at he
      rcases he with he | he
      · exact hge e he
      · simp only [List.mem_singleton] at he
        subst he
        exact le_refl 1

theorem pinWF_setUnpin (st : PinState) (addr : Addr) (h : PinWF st) :
    PinWF (setUnpin st addr) := by
  obtain ⟨hnd, hge⟩ := h
  constructor
  · have hsub : (setUnpin st addr).map Prod.fst |>.Sublist (st.map Prod.fst) := by
      unfold setUnpin
      induction st with
      | nil => simp
      | cons e rest ihr =>
        simp only [List.filterMap_cons, List.map_cons]
        have ih := ihr (List.Nodup.of_cons hnd) (fun x hx => hge x (List.mem_cons_of_mem e hx))
        by_cases h1 : e.1 == addr
        · rw [if_pos h1]
          by_cases h2 : e.2 - 1 = 0
          · rw [if_pos h2]
            exact ih.cons _
          · rw [if_neg h2]
            simp only [List.map_cons]
            exact ih.cons₂ _
        · rw [if_neg h1]
          simp only [List.map_cons]
          exact ih.cons₂ _
    exact hsub.nodup hnd
  · intro e he
    unfold setUnpin at he
    rw [List.mem_filterMap] at he
    obtain ⟨e0, he0, heq⟩ := he
    by_cases h1 : (e0.1 == addr) = true
    · rw [if_pos h1] at heq
      by_cases h2 : e0.2 - 1 = 0
      · rw [if_pos h2] at heq
        exact absurd heq (by simp)
      · rw [if_neg h2] at heq
        have heq2 : (e0.1, e0.2 - 1) = e := Option.some.inj heq
        subst heq2
        exact Nat.one_le_iff_ne_zero.mpr h2
    · rw [if_neg h1] at heq
      have heq2 : e0 = e := Option.some.inj heq
      exact heq2 ▸ hge e0 he0

theorem pinWF_setOne (st : PinState) (mode : ModeSet) (addr : Addr) (h : PinWF st) :
    PinWF (setOne st mode addr) := by
  cases mode with
  | pin => exact pinWF_setPin st addr h
  | unpin => exact pinWF_setUnpin st addr h
  | access => exact h

theorem pinWF_mockSet (st : PinState) (mode : ModeSet) (addrs : List Addr) (h : PinWF st) :
    PinWF (mockSet st mode addrs) := by
  induction addrs generalizing st with
  | nil => exact h
  | cons a rest ih =>
    exact ih (setOne st mode a) (pinWF_setOne st mode a h)

theorem pinInfo_cons (e : Addr × Nat) (rest : PinState) (addr : Addr) :
    pinInfo (e :: rest) addr =
      if e.1 == addr then some e.2 else pinInfo rest addr := by
  by_cases h : (e.1 == addr) = true
  · unfold pinInfo
    rw [List.find?_cons, h]
    simp
  · have hf : (e.1 == addr) = false := by simpa using h
    unfold pinInfo
    rw [List.find?_cons, hf]
    simp

theorem setUnpin_cons_other (e : Addr × Nat) (rest : PinState) (addr : Addr)
    (h : (e.1 == addr) = false) :
    setUnpin (e :: rest) addr = e :: setUnpin rest addr := by
  unfold setUnpin
  rw [List.filterMap_cons]
  simp [h]

theorem setUnpin_cons_last (e : Addr × Nat) (rest : PinState) (addr : Addr)
    (h : (e.1 == addr) = true) (h2 : e.2 - 1 = 0) :
    setUnpin (e :: rest) addr = setUnpin rest addr := by
  unfold setUnpin
  rw [List.filterMap_cons]
  simp [h, h2]

theorem setUnpin_cons_dec (e : Addr × Nat) (rest : PinState) (addr : Addr)
    (h : (e.1 == addr) = true) (h2 : e.2 - 1 ≠ 0) :
    setUnpin (e :: rest) addr = (e.1, e.2 - 1) :: setUnpin rest addr := by
  unfold setUnpin
  rw [List.filterMap_cons]
  simp [h, h2]

theorem pinInfo_setPin (st : PinState) (addr : Addr) :
    pinInfo (setPin st addr) addr = some ((pinInfo st addr).getD 0 + 1) := by
  induction st with
  | nil =>
    simp [setPin, pinInfo]
  | cons e rest ih =>
    by_cases h1 : (e.1 == addr) = true
    · have hany : ((e :: rest).any fun x => x.1 == addr) = true := by
        simp [List.any_cons, h1]
      unfold setPin
      rw [if_pos hany, List.map_cons, if_pos h1, pinInfo_cons, pinInfo_cons]
      simp [h1]
    · have h1f : (e.1 == addr) = false := Bool.eq_false_iff.mpr h1
      by_cases hany : (rest.any fun x => x.1 == addr) = true
      · have hany2 : ((e :: rest).any fun x => x.1 == addr) = true := by
          simp [List.any_cons, hany]
        have hst : setPin rest addr
            = rest.map (fun x => if x.1 == addr then (x.1, x.2 + 1) else x) := by
          unfold setPin
          rw [if_pos hany]
        unfold setPin
        rw [if_pos hany2, List.map_cons, if_neg h1, pinInfo_cons, pinInfo_cons,
          if_neg h1, if_neg h1, ← hst]
        exact ih
      · have hanyf : (rest.any fun x => x.1 == addr) = false := Bool.eq_false_iff.mpr hany
        have hany2 : ((e :: rest).any fun x => x.1 == addr) = false := by
          simp [List.any_cons, h1f, hanyf]
        have hst : setPin rest addr = rest ++ [(addr, 1)] := by
          unfold setPin
          rw [if_neg (ne_true_of_eq_false hanyf)]
        unfold setPin
        rw [if_neg (ne_true_of_eq_false hany2), List.cons_append, pinInfo_cons, pinInfo_cons,
          if_neg h1, if_neg h1, ← hst]
        exact ih

theorem setUnpin_absent (st : PinState) (addr : Addr) (h : pinInfo st addr = none) :
    setUnpin st addr = st := by
  induction st with
  | nil => rfl
  | cons e rest ih =>
    rw [pinInfo_cons] at h
    by_cases h1 : (e.1 == addr) = true
    · rw [if_pos h1] at h
      exact absurd h (by simp)
    · rw [if_neg h1] at h
      rw [setUnpin_cons_other e rest addr (by simpa using h1), ih h]

theorem pinInfo_absent_of_not_mem (st : PinState) (addr : Addr)
    (h : addr ∉ st.map Prod.fst) : pinInfo st addr = none := by
  unfold pinInfo
  rw [List.find?_eq_none.mpr]
  · rfl
  · intro e he hbeq
    exact h (List.mem_map.mpr ⟨e, he, by simpa using hbeq⟩)

theorem pinInfo_setUnpin_ge_two (st : PinState) (addr : Addr) (c : Nat)
    (hwf : PinWF st) (hc : pinInfo st addr = some c) (h2 : 2 ≤ c) :
    pinInfo (setUnpin st addr) addr = some (c - 1) := by
  induction st with
  | nil => exact absurd hc (by simp [pinInfo])
  | cons e rest ih =>
    rw [pinInfo_cons] at hc
    by_cases h1 : (e.1 == addr) = true
    · rw [if_pos h1] at hc
      have hc2 : e.2 = c := by simpa using hc
      rw [setUnpin_cons_dec e rest addr h1 (by omega), pinInfo_cons]
      simp [h1, hc2]
    · rw [if_neg h1] at hc
      have hwrest : PinWF rest :=
        ⟨List.Nodup.of_cons hwf.1, fun x hx => hwf.2 x (List.mem_cons_of_mem e hx)⟩
      rw [setUnpin_cons_other e rest addr (by simpa using h1), pinInfo_cons, if_neg h1]
      exact ih hwrest hc

theorem pinInfo_setUnpin_one (st : PinState) (addr : Addr)
    (hwf : PinWF st) (hc : pinInfo st addr = some 1) :
    pinInfo (setUnpin st addr) addr = none := by
  induction st with
  | nil => exact absurd hc (by simp [pinInfo])
  | cons e rest ih =>
    rw [pinInfo_cons] at hc
    by_cases h1 : (e.1 == addr) = true
    · rw [if_pos h1] at hc
      have hc2 : e.2 = 1 := by simpa using hc
      rw [setUnpin_cons_last e rest addr h1 (by omega)]
      have hnotmem : addr ∉ rest.map Prod.fst := by
        have hnd := hwf.1
        rw [List.map_cons, List.nodup_cons] at hnd
        have he1 : e.1 = addr := by simpa using h1
        rw [← he1]
        exact hnd.1
      have habs : pinInfo rest addr = none := pinInfo_absent_of_not_mem rest addr hnotmem
      rw [setUnpin_absent rest addr habs]
      exact habs
    · rw [if_neg h1] at hc
      have hwrest : PinWF rest :=
        ⟨List.Nodup.of_cons hwf.1, fun x hx => hwf.2 x (List.mem_cons_of_mem e hx)⟩
      rw [setUnpin_cons_other e rest addr (by simpa using h1), pinInfo_cons, if_neg h1]
      exact ih hwrest hc

/-- C9 (confirmed): on every well-formed pinned set (as maintained from the
empty initial state), every pin counter is at least 1 and well-formedness
is preserved by every `Set` call; `Set(Pin, a)` increments `a`'s counter,
creating the entry at 1 when absent; `Set(Unpin, a)` decrements the counter,
removes the entry exactly when it reaches zero, and leaves the pinned set
unchanged when `a` is absent. -/
theorem mockStorer_pin_counter_spec (st : PinState) (addr : Addr) (hwf : PinWF st) :
    (∀ (mode : ModeSet) (addrs : List Addr), PinWF (mockSet st mode addrs)) ∧
    (∀ e ∈ st, 1 ≤ e.2) ∧
    pinInfo (mockSet st .pin [addr]) addr = some ((pinInfo st addr).getD 0 + 1) ∧
    (∀ c, pinInfo st addr = some c → 2 ≤ c →
      pinInfo (mockSet st .unpin [addr]) addr = some (c - 1)) ∧
    (pinInfo st addr = some 1 → pinInfo (mockSet st .unpin [addr]) addr = none) ∧
    (pinInfo st addr = none → mockSet st .unpin [addr] = st) := by
  refine ⟨fun mode addrs => pinWF_mockSet st mode addrs hwf, hwf.2, ?_, ?_, ?_, ?_⟩
  · simpa [mockSet, setOne] using pinInfo_setPin st addr
  · intro c hc h2
    simpa [mockSet, setOne] using pinInfo_setUnpin_ge_two st addr c hwf hc h2
  · intro hc
    simpa [mockSet, setOne] using pinInfo_setUnpin_one st addr hwf hc
  · intro hc
    simpa [mockSet, setOne] using setUnpin_absent st addr hc

/-- Witness for C9's theorem at the concrete pinned set `[(3, 2)]`. -/
theorem mockStorer_pin_counter_spec_witness :
    pinInfo (mockSet [(3, 2)] .pin [3]) 3 = some ((pinInfo [(3, 2)] 3).getD 0 + 1) ∧
    pinInfo (mockSet [(3, 2)] .unpin [3]) 3 = some (2 - 1) :=
  ⟨(mockStorer_pin_counter_spec [(3, 2)] 3 (by decide)).2.2.1,
   (mockStorer_pin_counter_spec [(3, 2)] 3 (by decide)).2.2.2.1 2 (by decide) (by decide)⟩

/-! ## Push-sync (src/unnamed/part_002, package pushsync)

`PushChunkToClosest` and the stream handler are embedded over an
environment that records the outcome of every external call (topology
driver, accounting, tagger, streams). Context cancellation (the
`ctx.Done()` select at the top of each loop iteration) and the deferred
`Release`/`FullClose` calls are not modelled; `time.Minute` is rendered
in seconds. -/

/-- maxPeers (part_002 line 464). -/
def maxPeers : Nat := 5

/-- blocklistDuration = time.Minute (part_002 line 465), in seconds. -/
def blocklistDuration : Nat := 60

/-- Outcome of `ps.peerSuggester.ClosestPeer` (external topology driver). -/
inductive ClosestRes
  | peer (p : Addr)
  | wantSelf
  | notFound
  | fail
deriving DecidableEq, Repr

/-- Outcome of one streaming exchange with a chosen peer: opening the
stream can fail, the chunk-delivery write or the receipt read can fail
(each either by the `timeToWaitForReceipt` deadline or otherwise), or a
receipt with some address comes back. -/
inductive StreamRes
  | newStreamErr
  | sendErr (deadlineExceeded : Bool)
  | recvErr (deadlineExceeded : Bool)
  | receipt (addr : Addr)
deriving DecidableEq, Repr

/-- Environment of one `PushChunkToClosest` call. Each peer's behaviour is
a function of its address (peers are contacted at most once per call). -/
structure PushEnv where
  /-- `ps.peerSuggester.ClosestPeer(ch.Address())` on the first attempt -/
  closest0 : ClosestRes
  /-- the peers `EachPeerRev` yields, in iteration order (used by
  `ps.closestPeer` on attempts after the first) -/
  peersRev : List Addr
  /-- whether `ps.accounting.Reserve(ctx, peer, price)` succeeds -/
  reserveOk : Addr → Bool
  /-- the streaming exchange outcome against a peer -/
  stream : Addr → StreamRes
  /-- whether `ps.tagger.Get(ch.TagID())` returns a non-nil tag without error -/
  tagPresent : Bool
  /-- whether `t.Inc(tags.StateSent)` succeeds -/
  incOk : Bool
  /-- whether `ps.accounting.Credit(peer, price)` succeeds -/
  creditOk : Addr → Bool

/-- swarm.DistanceCmp(a, x, y): 1 when `x` is closer to `a` than `y`
(`|a⊕x| < |a⊕y|`), -1 when farther, 0 when equal. -/
def distanceCmp (a x y : Addr) : Int :=
  if Nat.xor a x < Nat.xor a y then 1
  else if Nat.xor a y < Nat.xor a x then -1
  else 0

/-- The `EachPeerRev` fold inside `PushSync.closestPeer` (part_002 lines
802-829): skip listed peers, adopt the first candidate (the zero address
`closest.IsZero()` is the unset sentinel), then keep the 3-way-closer
candidate. -/
def closestFold (chAddr : Addr) (skip : List Addr) (peers : List Addr)
    (closest : Addr) : Addr :=
  match peers with
  | [] => closest
  | p :: ps =>
    if skip.contains p then closestFold chAddr skip ps closest
    else if closest = 0 then closestFold chAddr skip ps p
    else if distanceCmp chAddr closest p = -1 then closestFold chAddr skip ps p
    else closestFold chAddr skip ps closest

/-- `PushSync.closestPeer` (part_002 lines 802-840): `ErrNotFound` when the
fold leaves the sentinel. -/
def closestPeer (chAddr : Addr) (skip : List Addr) (peers : List Addr) :
    Except Unit Addr :=
  let c := closestFold chAddr skip peers 0
  if c = 0 then .error () else .ok c

/-- Error classes `PushChunkToClosest` can return. -/
inductive PushErr
  | closestErr
  | reserveErr
  | incErr
  | invalidReceipt
  | creditErr
  | lastErrStream
  | lastErrSend
  | lastErrRecv
  | errNotFound
deriving DecidableEq, Repr

/-- The `lastErr` variable of the originator loop. -/
inductive LastErr
  | noErr
  | streamE
  | sendE
  | recvE
deriving DecidableEq, Repr

/-- Observable outcome of one `PushChunkToClosest` call. -/
structure PushResult where
  /-- the receipt address, or the error returned -/
  res : Except PushErr Addr
  /-- the `skipPeers` accumulated: every peer an attempt was made on -/
  tried : List Addr
  /-- `(peer, duration)` pairs passed to `ps.streamer.Blocklist` -/
  blocklisted : List (Addr × Nat)
  /-- how often `t.Inc(tags.StateSent)` succeeded -/
  sentInc : Nat
  /-- how many outbound streams were opened successfully -/
  streamsOpened : Nat
deriving Repr

/-- Result of peer selection in one loop iteration (attempt 0 uses the
topology driver's `ClosestPeer`; later attempts use `ps.closestPeer`
with the skip list). -/
inductive SelectRes
  | skip
  | wantSelf
  | failed
  | peer (p : Addr)
deriving DecidableEq, Repr

/-- Peer selection of iteration `i` of `PushChunkToClosest` (part_002
lines 686-717): on attempt 0 `ErrNotFound` merely continues the loop and
`ErrWantSelf` short-circuits; on later attempts any lookup error aborts. -/
def selectPeer (env : PushEnv) (chAddr : Addr) (i : Nat) (skipPeers : List Addr) :
    SelectRes :=
  if i = 0 then
    match env.closest0 with
    | .peer p => .peer p
    | .wantSelf => .wantSelf
    | .notFound => .skip
    | .fail => .failed
  else
    match closestPeer chAddr skipPeers env.peersRev with
    | .ok p => .peer p
    | .error _ => .failed

/-- One iteration of the originator loop of `PushChunkToClosest` (part_002
lines 673-788): select a peer, append it to `skipPeers`, reserve, open a
stream and exchange delivery/receipt; on a deadline-exceeded send or
receive failure the peer is blocklisted; on any open/send/receive failure
the loop continues via `k` (the next iteration); a received receipt first
bumps the tag "sent" counter, then its address is checked and the peer
credited. `k` takes the updated skip list, lastErr, blocklist, sent count
and stream count. -/
def pushIter (env : PushEnv) (ch : Chunk) (i : Nat) (skip : List Addr)
    (lastErr : LastErr) (bl : List (Addr × Nat)) (sent streams : Nat)
    (k : List Addr → LastErr → List (Addr × Nat) → Nat → Nat → PushResult) :
    PushResult :=
  match selectPeer env ch.addr i skip with
  | .skip => k skip lastErr bl sent streams
  | .failed => ⟨.error .closestErr, skip, bl, sent, streams⟩
  | .wantSelf =>
    if env.tagPresent then
      if env.incOk then ⟨.ok ch.addr, skip, bl, sent + 1, streams⟩
      else ⟨.error .incErr, skip, bl, sent, streams⟩
    else ⟨.ok ch.addr, skip, bl, sent, streams⟩
  | .peer p =>
    let skip2 := skip ++ [p]
    if env.reserveOk p then
      match env.stream p with
      | .newStreamErr => k skip2 .streamE bl sent streams
      | .sendErr dl =>
        k skip2 .sendE (if dl then bl ++ [(p, blocklistDuration)] else bl)
          sent (streams + 1)
      | .recvErr dl =>
        k skip2 .recvE (if dl then bl ++ [(p, blocklistDuration)] else bl)
          sent (streams + 1)
      | .receipt ra =>
        if env.tagPresent && !env.incOk then
          ⟨.error .incErr, skip2, bl, sent, streams + 1⟩
        else
          let sent2 := if env.tagPresent then sent + 1 else sent
          if ra = ch.addr then
            if env.creditOk p then ⟨.ok ra, skip2, bl, sent2, streams + 1⟩
            else ⟨.error .creditErr, skip2, bl, sent2, streams + 1⟩
          else ⟨.error .invalidReceipt, skip2, bl, sent2, streams + 1⟩
    else ⟨.error .reserveErr, skip2, bl, sent, streams⟩

/-- The `for i := 0; i < maxPeers; i++` loop, with `fuel = maxPeers - i`
made explicit so the recursion is structural; fuel exhaustion is the
post-loop return of `lastErr` (or `topology.ErrNotFound`). -/
def pushLoop (env : PushEnv) (ch : Chunk) : Nat → Nat → List Addr → LastErr →
    List (Addr × Nat) → Nat → Nat → PushResult
  | 0, _i, skip, lastErr, bl, sent, streams =>
    ⟨match lastErr with
      | .noErr => .error .errNotFound
      | .streamE => .error .lastErrStream
      | .sendE => .error .lastErrSend
      | .recvE => .error .lastErrRecv,
     skip, bl, sent, streams⟩
  | fuel + 1, i, skip, lastErr, bl, sent, streams =>
    pushIter env ch i skip lastErr bl sent streams
      (fun skip2 le2 bl2 sent2 streams2 =>
        pushLoop env ch fuel (i + 1) skip2 le2 bl2 sent2 streams2)

/-- `PushSync.PushChunkToClosest` (part_002 lines 664-797). -/
def pushChunkToClosest (env : PushEnv) (ch : Chunk) : PushResult :=
  pushLoop env ch maxPeers 0 [] .noErr [] 0 0

theorem pushLoop_succ (env : PushEnv) (ch : Chunk) (fuel i : Nat) (skip : List Addr)
    (lastErr : LastErr) (bl : List (Addr × Nat)) (sent streams : Nat) :
    pushLoop env ch (fuel + 1) i skip lastErr bl sent streams =
      pushIter env ch i skip lastErr bl sent streams
        (fun skip2 le2 bl2 sent2 streams2 =>
          pushLoop env ch fuel (i + 1) skip2 le2 bl2 sent2 streams2) := rfl

/-! ### Claim C8: ErrWantSelf on the first attempt -/

/-- C8 (amended): if `ClosestPeer` yields `ErrWantSelf` on the first attempt
and the chunk's tag is retrievable and its "sent" increment succeeds, then
`PushChunkToClosest` increments "sent" once and returns a receipt carrying
the chunk's own address, with no error, no opened stream and no
blocklisting. (When the tag is absent the receipt is still returned
without the increment.) -/
theorem pushsync_wantSelf_receipt (env : PushEnv) (ch : Chunk)
    (h1 : env.closest0 = .wantSelf) (h2 : env.tagPresent = true)
    (h3 : env.incOk = true) :
    (pushChunkToClosest env ch).res = .ok ch.addr ∧
    (pushChunkToClosest env ch).sentInc = 1 ∧
    (pushChunkToClosest env ch).streamsOpened = 0 ∧
    (pushChunkToClosest env ch).blocklisted = [] := by
  have hsel : selectPeer env ch.addr 0 [] = .wantSelf := by
    unfold selectPeer
    rw [if_pos rfl, h1]
  have hrun : pushChunkToClosest env ch = ⟨.ok ch.addr, [], [], 1, 0⟩ := by
    unfold pushChunkToClosest
    rw [show maxPeers = 4 + 1 from rfl, pushLoop_succ]
    unfold pushIter
    rw [hsel, h2, h3]
    simp
  rw [hrun]
  exact ⟨rfl, rfl, rfl, rfl⟩

/-- Witness environment for C8 (used only by the witness below). -/
def wantSelfEnv : PushEnv :=
  ⟨.wantSelf, [], fun _ => true, fun _ => .receipt 0, true, true, fun _ => true⟩

/-- Witness for C8's theorem at a concrete environment. -/
theorem pushsync_wantSelf_receipt_witness :
    (pushChunkToClosest wantSelfEnv ⟨9, []⟩).res = .ok 9 ∧
    (pushChunkToClosest wantSelfEnv ⟨9, []⟩).sentInc = 1 ∧
    (pushChunkToClosest wantSelfEnv ⟨9, []⟩).streamsOpened = 0 ∧
    (pushChunkToClosest wantSelfEnv ⟨9, []⟩).blocklisted = [] :=
  pushsync_wantSelf_receipt wantSelfEnv ⟨9, []⟩ rfl rfl rfl

/-- Environment for the C8 counterexample (used only by it): the node is
closest to the chunk but the tagger has no tag for the chunk. -/
def wantSelfNoTagEnv : PushEnv :=
  ⟨.wantSelf, [], fun _ => true, fun _ => .receipt 0, false, true, fun _ => true⟩

/-- Counterexample to C8 as stated: when `ClosestPeer` yields `ErrWantSelf`
on the first attempt but `tagger.Get` fails for the chunk's tag id, the
receipt is returned with no error, yet no "sent" counter is incremented —
the increment the claim asserts unconditionally. -/
theorem pushsync_wantSelf_missing_tag_counterexample :
    (pushChunkToClosest wantSelfNoTagEnv ⟨9, []⟩).res = .ok 9 ∧
    (pushChunkToClosest wantSelfNoTagEnv ⟨9, []⟩).sentInc = 0 := by
  exact ⟨rfl, rfl⟩

/-! ### Claim C2: blocklisting on failed attempts -/

/-- A deadline-exceeded failure of the streaming exchange with peer `p` —
the only failures `PushChunkToClosest` blocklists for. -/
def deadlineFailure (env : PushEnv) (p : Addr) : Prop :=
  env.stream p = .sendErr true ∨ env.stream p = .recvErr true

theorem closestFold_mem_or_init (chAddr : Addr) (skip : List Addr)
    (peers : List Addr) (closest : Addr) :
    closestFold chAddr skip peers closest = closest ∨
      (closestFold chAddr skip peers closest ∈ peers ∧
        closestFold chAddr skip peers closest ∉ skip) := by
  induction peers generalizing closest with
  | nil => exact Or.inl rfl
  | cons p ps ih =>
    have hpmem : ¬ skip.contains p = true → p ∉ skip := by
      intro hc hm
      exact hc (by simpa using hm)
    unfold closestFold
    by_cases hc : skip.contains p = true
    · rw [if_pos hc]
      rcases ih closest with h | h
      · exact Or.inl h
      · exact Or.inr ⟨List.mem_cons_of_mem p h.1, h.2⟩
    · rw [if_neg hc]
      by_cases h0 : closest = 0
      · rw [if_pos h0]
        rcases ih p with h | h
        · exact Or.inr ⟨by rw [h]; exact List.mem_cons_self p ps,
            by rw [h]; exact hpmem hc⟩
        · exact Or.inr ⟨List.mem_cons_of_mem p h.1, h.2⟩
      · rw [if_neg h0]
        by_cases hd : distanceCmp chAddr closest p = -1
        · rw [if_pos hd]
          rcases ih p with h | h
          · exact Or.inr ⟨by rw [h]; exact List.mem_cons_self p ps,
            by rw [h]; exact hpmem hc⟩
          · exact Or.inr ⟨List.mem_cons_of_mem p h.1, h.2⟩
        · rw [if_neg hd]
          rcases ih closest with h | h
          · exact Or.inl h
          · exact Or.inr ⟨List.mem_cons_of_mem p h.1, h.2⟩

theorem closestPeer_ok_fresh (chAddr : Addr) (skip peers : List Addr) (p : Addr)
    (h : closestPeer chAddr skip peers = .ok p) : p ∉ skip := by
  unfold closestPeer at h
  by_cases h0 : closestFold chAddr skip peers 0 = 0
  · rw [if_pos h0] at h
    exact absurd h (by simp)
  · rw [if_neg h0] at h
    have hp : closestFold chAddr skip peers 0 = p := by
      simpa using h
    rcases closestFold_mem_or_init chAddr skip peers 0 with he | he
    · exact absurd he h0
    · exact hp ▸ he.2

theorem selectPeer_peer_fresh (env : PushEnv) (chAddr : Addr) (i : Nat)
    (skip : List Addr) (p : Addr) (hi : i ≠ 0)
    (h : selectPeer env chAddr i skip = .peer p) : p ∉ skip := by
  unfold selectPeer at h
  rw [if_neg hi] at h
  rcases hcp : closestPeer chAddr skip env.peersRev with _ | q
  · rw [hcp] at h
    exact absurd h (by simp)
  · rw [hcp] at h
    have : q = p := by
      simpa using h
    exact this ▸ closestPeer_ok_fresh chAddr skip env.peersRev q hcp

/-- The blocklist invariant of the originator loop: the peers attempted so
far are pairwise distinct and bounded, every blocklist entry is an
attempted peer with a deadline-exceeded failure and carries
`blocklistDuration`, and every attempted peer whose reserve succeeded and
whose exchange failed by deadline is in the blocklist. -/
def BlockInv (env : PushEnv) (r : PushResult) (n : Nat) : Prop :=
  r.tried.Nodup ∧ r.tried.length ≤ n ∧
  (∀ e ∈ r.blocklisted, e.2 = blocklistDuration ∧ e.1 ∈ r.tried ∧
    deadlineFailure env e.1) ∧
  (∀ p ∈ r.tried, env.reserveOk p = true → deadlineFailure env p →
    (p, blocklistDuration) ∈ r.blocklisted)

theorem blockInv_mono (env : PushEnv) (r : PushResult) (n m : Nat)
    (h : BlockInv env r n) (hnm : n ≤ m) : BlockInv env r m :=
  ⟨h.1, le_trans h.2.1 hnm, h.2.2.1, h.2.2.2⟩

theorem blockInv_of_parts (env : PushEnv) (res : Except PushErr Addr)
    (skip2 : List Addr) (bl2 : List (Addr × Nat)) (sent2 streams2 n : Nat)
    (hnd : skip2.Nodup) (hlen : skip2.length ≤ n)
    (hbl : ∀ e ∈ bl2, e.2 = blocklistDuration ∧ e.1 ∈ skip2 ∧
      deadlineFailure env e.1)
    (hcomp : ∀ p ∈ skip2, env.reserveOk p = true → deadlineFailure env p →
      (p, blocklistDuration) ∈ bl2) :
    BlockInv env ⟨res, skip2, bl2, sent2, streams2⟩ n :=
  ⟨hnd, hlen, hbl, hcomp⟩

theorem pushLoop_blocklist_inv (env : PushEnv) (ch : Chunk) (fuel : Nat) :
    ∀ (i : Nat) (skip : List Addr) (lastErr : LastErr)
      (bl : List (Addr × Nat)) (sent streams : Nat),
      skip.Nodup →
      (i = 0 → skip = []) →
      (∀ e ∈ bl, e.2 = blocklistDuration ∧ e.1 ∈ skip ∧ deadlineFailure env e.1) →
      (∀ p ∈ skip, env.reserveOk p = true → deadlineFailure env p →
        (p, blocklistDuration) ∈ bl) →
      BlockInv env (pushLoop env ch fuel i skip lastErr bl sent streams)
        (skip.length + fuel) := by
  induction fuel with
  | zero =>
    intro i skip lastErr bl sent streams hnd _hi hbl hcomp
    exact ⟨hnd, Nat.le_add_right _ _, hbl, hcomp⟩
  | succ fuel ih =>
    intro i skip lastErr bl sent streams hnd hi hbl hcomp
    rw [pushLoop_succ]
    unfold pushIter
    rcases hsel : selectPeer env ch.addr i skip with _ | _ | _ | p
    · simp only [hsel]
      refine blockInv_mono env _ (skip.length + fuel) _ ?_ (by omega)
      exact ih (i + 1) skip lastErr bl sent streams hnd
        (fun h => absurd h (Nat.succ_ne_zero i)) hbl hcomp
    · simp only [hsel]
      by_cases htag : env.tagPresent = true
      · by_cases hinc : env.incOk = true
        · simp only [htag, hinc, if_true]
          exact blockInv_of_parts env _ skip bl _ _ _ hnd (Nat.le_add_right _ _) hbl hcomp
        · simp only [htag, hinc, if_true, if_false]
          exact blockInv_of_parts env _ skip bl _ _ _ hnd (Nat.le_add_right _ _) hbl hcomp
      · simp only [htag, if_false]
        exact blockInv_of_parts env _ skip bl _ _ _ hnd (Nat.le_add_right _ _) hbl hcomp
    · simp only [hsel]
      exact blockInv_of_parts env _ skip bl _ _ _ hnd (Nat.le_add_right _ _) hbl hcomp
    · simp only [hsel]
      have hfresh : p ∉ skip := by
        by_cases hi0 : i = 0
        · rw [hi hi0]
          exact List.not_mem_nil p
        · exact selectPeer_peer_fresh env ch.addr i skip p hi0 hsel
      have hnd2 : (skip ++ [p]).Nodup := by
        rw [List.nodup_append]
        refine ⟨hnd, List.nodup_singleton p, ?_⟩
        intro a ha hb
        simp only [List.mem_singleton] at hb
        subst hb
        exact hfresh ha
      have hlen2 : (skip ++ [p]).length = skip.length + 1 := by
        simp
      have hblW : ∀ e ∈ bl, e.2 = blocklistDuration ∧ e.1 ∈ skip ++ [p] ∧
          deadlineFailure env e.1 :=
        fun e he => ⟨(hbl e he).1, List.mem_append_left _ (hbl e he).2.1,
          (hbl e he).2.2⟩
      by_cases hres : env.reserveOk p = true
      · simp only [hres, if_true]
        rcases hstr : env.stream p with _ | dl | dl | ra
        · simp only [hstr]
          have hcompW : ∀ q ∈ skip ++ [p], env.reserveOk q = true →
              deadlineFailure env q → (q, blocklistDuration) ∈ bl := by
            intro q hq hrq hdq
            rcases List.mem_append.mp hq with hq | hq
            · exact hcomp q hq hrq hdq
            · simp only [List.mem_singleton] at hq
              subst hq
              rcases hdq with hd | hd <;> rw [hstr] at hd <;> exact StreamRes.noConfusion hd
          have := ih (i + 1) (skip ++ [p]) .streamE bl sent streams hnd2
            (fun h => absurd h (Nat.succ_ne_zero i)) hblW hcompW
          refine blockInv_mono env _ _ _ this (by omega)
        · simp only [hstr]
          by_cases hdl : dl = true

          · subst hdl
            simp only [if_true]
            have hbl2 : ∀ e ∈ bl ++ [(p, blocklistDuration)],
                e.2 = blocklistDuration ∧ e.1 ∈ skip ++ [p] ∧ deadlineFailure env e.1 := by
              intro e he
              rcases List.mem_append.mp he with he | he
              · exact hblW e he
              · simp only [List.mem_singleton] at he
                subst he
                exact ⟨rfl, List.mem_append_right _ (List.mem_singleton.mpr rfl),
                  Or.inl hstr⟩
            have hcomp2 : ∀ q ∈ skip ++ [p], env.reserveOk q = true →
                deadlineFailure env q →
                (q, blocklistDuration) ∈ bl ++ [(p, blocklistDuration)] := by
              intro q hq hrq hdq
              rcases List.mem_append.mp hq with hq | hq
              · exact List.mem_append_left _ (hcomp q hq hrq hdq)
              · simp only [List.mem_singleton] at hq
                subst hq
                exact List.mem_append_right _ (List.mem_singleton.mpr rfl)
            have := ih (i + 1) (skip ++ [p]) .sendE (bl ++ [(p, blocklistDuration)])
              sent (streams + 1) hnd2 (fun h => absurd h (Nat.succ_ne_zero i)) hbl2 hcomp2
            refine blockInv_mono env _ _ _ this (by omega)
          · have hdlf : dl = false := Bool.eq_false_iff.mpr hdl
            subst hdlf
            rw [if_neg Bool.false_ne_true]
            have hcomp2 : ∀ q ∈ skip ++ [p], env.reserveOk q = true →
                deadlineFailure env q → (q, blocklistDuration) ∈ bl := by
              intro q hq hrq hdq
              rcases List.mem_append.mp hq with hq | hq
              · exact hcomp q hq hrq hdq
              · simp only [List.mem_singleton] at hq
                subst hq
                rcases hdq with hd | hd <;> rw [hstr] at hd
                · exact absurd (StreamRes.sendErr.inj hd) (by simp)
                · exact StreamRes.noConfusion hd
            have := ih (i + 1) (skip ++ [p]) .sendE bl sent (streams + 1) hnd2
              (fun h => absurd h (Nat.succ_ne_zero i)) hblW hcomp2
            refine blockInv_mono env _ _ _ this (by omega)
        · simp only [hstr]
          by_cases hdl : dl = true
          · subst hdl
            simp only [if_true]
            have hbl2 : ∀ e ∈ bl ++ [(p, blocklistDuration)],
                e.2 = blocklistDuration ∧ e.1 ∈ skip ++ [p] ∧ deadlineFailure env e.1 := by
              intro e he
              rcases List.mem_append.mp he with he | he
              · exact hblW e he
              · simp only [List.mem_singleton] at he
                subst he
                exact ⟨rfl, List.mem_append_right _ (List.mem_singleton.mpr rfl),
                  Or.inr hstr⟩
            have hcomp2 : ∀ q ∈ skip ++ [p], env.reserveOk q = true →
                deadlineFailure env q →
                (q, blocklistDuration) ∈ bl ++ [(p, blocklistDuration)] := by
              intro q hq hrq hdq
              rcases List.mem_append.mp hq with hq | hq
              · exact List.mem_append_left _ (hcomp q hq hrq hdq)
              · simp only [List.mem_singleton] at hq
                subst hq
                exact List.mem_append_right _ (List.mem_singleton.mpr rfl)
            have := ih (i + 1) (skip ++ [p]) .recvE (bl ++ [(p, blocklistDuration)])
              sent (streams + 1) hnd2 (fun h => absurd h (Nat.succ_ne_zero i)) hbl2 hcomp2
            refine blockInv_mono env _ _ _ this (by omega)
          · have hdlf : dl = false := Bool.eq_false_iff.mpr hdl
            subst hdlf
            rw [if_neg Bool.false_ne_true]
            have hcomp2 : ∀ q ∈ skip ++ [p], env.reserveOk q = true →
                deadlineFailure env q → (q, blocklistDuration) ∈ bl := by
              intro q hq hrq hdq
              rcases List.mem_append.mp hq with hq | hq
              · exact hcomp q hq hrq hdq
              · simp only [List.mem_singleton] at hq
                subst hq
                rcases hdq with hd | hd <;> rw [hstr] at hd
                · exact StreamRes.noConfusion hd
                · exact absurd (StreamRes.recvErr.inj hd) (by simp)
            have := ih (i + 1) (skip ++ [p]) .recvE bl sent (streams + 1) hnd2
              (fun h => absurd h (Nat.succ_ne_zero i)) hblW hcomp2
            refine blockInv_mono env _ _ _ this (by omega)
        · simp only [hstr]
          have hcompT : ∀ q ∈ skip ++ [p], env.reserveOk q = true →
              deadlineFailure env q → (q, blocklistDuration) ∈ bl := by
            intro q hq hrq hdq
            rcases List.mem_append.mp hq with hq | hq
            · exact hcomp q hq hrq hdq
            · simp only [List.mem_singleton] at hq
              subst hq
              rcases hdq with hd | hd <;> rw [hstr] at hd <;> exact StreamRes.noConfusion hd
          have hterm : ∀ (res : Except PushErr Addr) (sent2 streams2 : Nat),
              BlockInv env ⟨res, skip ++ [p], bl, sent2, streams2⟩
                (skip.length + (fuel + 1)) := by
            intro res sent2 streams2
            exact blockInv_of_parts env res (skip ++ [p]) bl sent2 streams2 _
              hnd2 (by omega) hblW hcompT
          by_cases h1 : (env.tagPresent && !env.incOk) = true
          · simp only [h1, if_true]
            exact hterm _ _ _
          · simp only [h1, if_false]
            by_cases h2 : ra = ch.addr
            · by_cases h3 : env.creditOk p = true
              · simp only [h2, h3, if_true]
                exact hterm _ _ _
              · simp only [h2, h3, if_true, if_false]
                exact hterm _ _ _
            · simp only [h2, if_false]
              exact hterm _ _ _
      · simp only [hres, if_false]
        have hcompR : ∀ q ∈ skip ++ [p], env.reserveOk q = true →
            deadlineFailure env q → (q, blocklistDuration) ∈ bl := by
          intro q hq hrq hdq
          rcases List.mem_append.mp hq with hq | hq
          · exact hcomp q hq hrq hdq
          · simp only [List.mem_singleton] at hq
            subst hq
            exact absurd hrq hres
        exact blockInv_of_parts env _ (skip ++ [p]) bl _ _ _ hnd2 (by omega) hblW hcompR

/-- C2 (amended): during one `PushChunkToClosest` call, at most `maxPeers`
pairwise-distinct peers are attempted (each attempt excludes the peers
tried before); a peer is blocklisted — always for `blocklistDuration`
(one minute) — exactly when its attempt reached the streaming exchange
and failed with a deadline-exceeded chunk delivery or receipt wait. A
stream-open failure or a non-deadline stream error moves on to the next
peer without blocklisting. -/
theorem pushsync_blocklist_on_deadline (env : PushEnv) (ch : Chunk) :
    (pushChunkToClosest env ch).tried.Nodup ∧
    (pushChunkToClosest env ch).tried.length ≤ maxPeers ∧
    (∀ p ∈ (pushChunkToClosest env ch).tried, env.reserveOk p = true →
      (env.stream p = .sendErr true ∨ env.stream p = .recvErr true) →
      (p, blocklistDuration) ∈ (pushChunkToClosest env ch).blocklisted) ∧
    (∀ e ∈ (pushChunkToClosest env ch).blocklisted,
      e.2 = blocklistDuration ∧ e.1 ∈ (pushChunkToClosest env ch).tried ∧
      (env.stream e.1 = .sendErr true ∨ env.stream e.1 = .recvErr true)) := by
  have h := pushLoop_blocklist_inv env ch maxPeers 0 [] .noErr [] 0 0
    List.nodup_nil (fun _ => rfl)
    (fun e he => absurd he (List.not_mem_nil e))
    (fun p hp => absurd hp (List.not_mem_nil p))
  exact ⟨h.1, by simpa using h.2.1, h.2.2.2, h.2.2.1⟩

/-- Environment of spec scenario 6, used only by the C2 witness: peer 3
fails with deadline-exceeded, then peer 4 answers with a valid receipt. -/
def deadlineRetryEnv : PushEnv :=
  ⟨.peer 3, [4], fun _ => true,
    fun p => if p = 3 then .sendErr true else .receipt 9,
    false, true, fun _ => true⟩

/-- Witness for C2's theorem: the deadline-failed peer 3 is blocklisted for
`blocklistDuration`. -/
theorem pushsync_blocklist_on_deadline_witness :
    (3, blocklistDuration) ∈ (pushChunkToClosest deadlineRetryEnv ⟨9, []⟩).blocklisted :=
  (pushsync_blocklist_on_deadline deadlineRetryEnv ⟨9, []⟩).2.2.1 3
    (by decide) rfl (Or.inl rfl)

/-- Environment used only by the C2 counterexample: the only attempted peer
fails with a non-deadline stream write error. -/
def streamErrNoBlockEnv : PushEnv :=
  ⟨.peer 3, [], fun _ => true, fun _ => .sendErr false, false, true, fun _ => true⟩

/-- Counterexample to C2 as stated: peer 3's attempt fails with a stream
error that is not deadline-exceeded; the claim says such a peer is
blocklisted, but the call blocklists nobody. -/
theorem pushsync_stream_error_no_blocklist_counterexample :
    streamErrNoBlockEnv.stream 3 = .sendErr false ∧
    3 ∈ (pushChunkToClosest streamErrNoBlockEnv ⟨9, []⟩).tried ∧
    (pushChunkToClosest streamErrNoBlockEnv ⟨9, []⟩).blocklisted = [] := by
  refine ⟨rfl, ?_, rfl⟩
  decide

/-! ### Claim C3: the push-sync forwarder handler (part_002 lines 522-621,
851-872) -/

/-- Outcome of `ps.peerSuggester.ClosestPeer` inside the handler. -/
inductive HandlerClosest
  | wantSelf
  | fail
  | peer (p : Addr)
deriving DecidableEq, Repr

/-- Environment of one handler invocation, after a `Delivery` was read
successfully from the inbound stream. -/
structure HandlerEnv where
  /-- first component of `ps.validator.ValidWithCallback(chunk)` -/
  valid : Bool
  /-- whether the returned delivery callback is non-nil -/
  callbackPresent : Bool
  /-- outcome of `ClosestPeer(chunk.Address())` -/
  closest : HandlerClosest
  /-- whether `Reserve` succeeds on the forward path -/
  reserveOk : Bool
  /-- outcome of the outbound forwarding exchange (open/send/receive) -/
  fwdStream : StreamRes
  /-- whether `Credit` of the forwarded peer succeeds -/
  creditOk : Bool
  /-- whether relaying the received receipt on the inbound stream succeeds -/
  relayReceiptOk : Bool
  /-- whether `storer.Put(ctx, ModePutSync, chunk)` succeeds -/
  storePutOk : Bool
  /-- whether `sendReceipt` on the inbound stream succeeds -/
  sendReceiptOk : Bool
  /-- whether `Debit` of the sender succeeds -/
  debitOk : Bool

/-- Error classes the handler can return (any error resets the inbound
stream). -/
inductive HandlerErr
  | invalidChunk
  | closestErr
  | reserveErr
  | newStreamErr
  | forwardSendErr
  | receiptRecvErr
  | invalidReceipt
  | creditErr
  | storeErr
  | sendReceiptErr
  | debitErr
deriving DecidableEq, Repr

/-- Observable outcome of one handler invocation. -/
structure HandlerResult where
  res : Except HandlerErr Unit
  /-- chunks stored locally with `ModePutSync` -/
  storedSync : List Chunk
  /-- whether the validator's delivery callback goroutine was spawned -/
  callbackFired : Bool
  /-- receipt addresses successfully written back to the sender -/
  receiptsToSender : List Addr
  /-- whether the sender was debited the chunk price -/
  debitedSender : Bool
deriving Repr

/-- `PushSync.handleDeliveryResponse` (part_002 lines 851-872): store under
`ModePutSync`, send a `Receipt{addr}` back, debit the sender; each step
aborts the rest on failure. Returns (result, stored, receipts, debited). -/
def handleDeliveryResponse (env : HandlerEnv) (ch : Chunk) :
    Except HandlerErr Unit × List Chunk × List Addr × Bool :=
  if env.storePutOk then
    if env.sendReceiptOk then
      if env.debitOk then (.ok (), [ch], [ch.addr], true)
      else (.error .debitErr, [ch], [ch.addr], false)
    else (.error .sendReceiptErr, [ch], [], false)
  else (.error .storeErr, [], [], false)

/-- `PushSync.handler` (part_002 lines 522-621) after a `Delivery`
`(sender, ch)` was read: validate; on `ErrWantSelf` spawn the delivery
callback (when present) and run the delivery response; when the sender is
the closest peer, run the delivery response without the callback;
otherwise forward to the closest peer, verify the returned receipt,
credit the peer, relay the receipt to the sender and debit the sender. -/
def pushHandler (env : HandlerEnv) (sender : Addr) (ch : Chunk) : HandlerResult :=
  if env.valid then
    match env.closest with
    | .wantSelf =>
      let d := handleDeliveryResponse env ch
      ⟨d.1, d.2.1, env.callbackPresent, d.2.2.1, d.2.2.2⟩
    | .fail => ⟨.error .closestErr, [], false, [], false⟩
    | .peer p =>
      if sender = p then
        let d := handleDeliveryResponse env ch
        ⟨d.1, d.2.1, false, d.2.2.1, d.2.2.2⟩
      else
        if env.reserveOk then
          match env.fwdStream with
          | .newStreamErr => ⟨.error .newStreamErr, [], false, [], false⟩
          | .sendErr _ => ⟨.error .forwardSendErr, [], false, [], false⟩
          | .recvErr _ => ⟨.error .receiptRecvErr, [], false, [], false⟩
          | .receipt ra =>
            if ra = ch.addr then
              if env.creditOk then
                if env.relayReceiptOk then
                  if env.debitOk then ⟨.ok (), [], false, [ra], true⟩
                  else ⟨.error .debitErr, [], false, [ra], false⟩
                else ⟨.error .sendReceiptErr, [], false, [], false⟩
              else ⟨.error .creditErr, [], false, [], false⟩
            else ⟨.error .invalidReceipt, [], false, [], false⟩
        else ⟨.error .reserveErr, [], false, [], false⟩
  else ⟨.error .invalidChunk, [], false, [], false⟩

/-- C3 (amended): for every valid received `Delivery` whose closest-peer
lookup yields `ErrWantSelf` or the sender itself, and whose local store,
receipt write and debit succeed: the chunk is stored under mode `Sync`, a
`Receipt` carrying the chunk's address is sent back, and the sender is
debited — but the validator's delivery callback is fired only in the
`ErrWantSelf` case (and only when the validator returned a callback);
when the sender is the closest peer no callback is fired. -/
theorem pushsync_handler_local_delivery (env : HandlerEnv) (sender : Addr)
    (ch : Chunk) (hv : env.valid = true)
    (hc : env.closest = .wantSelf ∨ env.closest = .peer sender)
    (h1 : env.storePutOk = true) (h2 : env.sendReceiptOk = true)
    (h3 : env.debitOk = true) :
    (pushHandler env sender ch).storedSync = [ch] ∧
    (pushHandler env sender ch).receiptsToSender = [ch.addr] ∧
    (pushHandler env sender ch).debitedSender = true ∧
    (pushHandler env sender ch).res = .ok () ∧
    ((pushHandler env sender ch).callbackFired = true ↔
      env.closest = .wantSelf ∧ env.callbackPresent = true) := by
  have hd : handleDeliveryResponse env ch = (.ok (), [ch], [ch.addr], true) := by
    unfold handleDeliveryResponse
    rw [if_pos h1, if_pos h2, if_pos h3]
  rcases hc with hc | hc
  · have hrun : pushHandler env sender ch =
        ⟨.ok (), [ch], env.callbackPresent, [ch.addr], true⟩ := by
      unfold pushHandler
      rw [if_pos hv, hc]
      simp [hd]
    rw [hrun]
    refine ⟨rfl, rfl, rfl, rfl, ?_⟩
    simp [hc]
  · have hrun : pushHandler env sender ch =
        ⟨.ok (), [ch], false, [ch.addr], true⟩ := by
      unfold pushHandler
      rw [if_pos hv, hc]
      simp [hd]
    rw [hrun]
    refine ⟨rfl, rfl, rfl, rfl, ?_⟩
    constructor
    · intro hfalse
      exact absurd hfalse (by simp)
    · rintro ⟨hws, -⟩
      rw [hc] at hws
      exact HandlerClosest.noConfusion hws

/-- Witness for C3's theorem: a valid delivery handled on the `ErrWantSelf`
path with a callback present. -/
theorem pushsync_handler_local_delivery_witness :
    (pushHandler ⟨true, true, .wantSelf, true, .receipt 5, true, true, true, true, true⟩
        7 ⟨5, [1]⟩).storedSync = [⟨5, [1]⟩] ∧
    (pushHandler ⟨true, true, .wantSelf, true, .receipt 5, true, true, true, true, true⟩
        7 ⟨5, [1]⟩).receiptsToSender = [(5 : Addr)] ∧
    (pushHandler ⟨true, true, .wantSelf, true, .receipt 5, true, true, true, true, true⟩
        7 ⟨5, [1]⟩).debitedSender = true ∧
    (pushHandler ⟨true, true, .wantSelf, true, .receipt 5, true, true, true, true, true⟩
        7 ⟨5, [1]⟩).res = .ok () ∧
    ((pushHandler ⟨true, true, .wantSelf, true, .receipt 5, true, true, true, true, true⟩
        7 ⟨5, [1]⟩).callbackFired = true ↔
      (⟨true, true, .wantSelf, true, .receipt 5, true, true, true, true, true⟩ :
          HandlerEnv).closest = .wantSelf ∧
        (⟨true, true, .wantSelf, true, .receipt 5, true, true, true, true, true⟩ :
          HandlerEnv).callbackPresent = true) :=
  pushsync_handler_local_delivery
    ⟨true, true, .wantSelf, true, .receipt 5, true, true, true, true, true⟩
    7 ⟨5, [1]⟩ rfl (Or.inl rfl) rfl rfl rfl

/-- Environment used only by the C3 counterexample: a valid delivery whose
sender (peer 7) is itself the closest peer, with a delivery callback
available and every local step succeeding. -/
def senderClosestEnv : HandlerEnv :=
  ⟨true, true, .peer 7, true, .receipt 5, true, true, true, true, true⟩

/-- Counterexample to C3 as stated: when the sender is the closest peer the
chunk is stored, the receipt sent and the sender debited, but the
validator's delivery callback — which the claim says is fired — is not
fired, even though the validator returned one. -/
theorem pushsync_handler_sender_closest_no_callback_counterexample :
    (pushHandler senderClosestEnv 7 ⟨5, [1]⟩).storedSync = [⟨5, [1]⟩] ∧
    (pushHandler senderClosestEnv 7 ⟨5, [1]⟩).receiptsToSender = [(5 : Addr)] ∧
    (pushHandler senderClosestEnv 7 ⟨5, [1]⟩).debitedSender = true ∧
    senderClosestEnv.callbackPresent = true ∧
    (pushHandler senderClosestEnv 7 ⟨5, [1]⟩).callbackFired = false :=
  ⟨rfl, rfl, rfl, rfl, rfl⟩

end Bee

